import Mathlib

/-!
Verification of the `updata` manifest-editing tool (Bottlerocket updater
workspace, `src/workspaces/updater/updog/src/bin/updata.rs`).

The file shallowly embeds the manifest data model and the mutation
operations the tool performs.  Operations whose bodies appear in
`updata.rs` (removal with cleanup, mapping insertion, migration
replacement, the CLI-level control flow around load results) are
translated directly from that source.  Operations of the external
`update_metadata` crate (`add_update`, `add_wave`, `update_max_version`)
are not part of the given source tree; their definitions below are
modelled from the specification and marked as such in their doc comments.

File I/O is represented by passing the load result (`Except LoadError
Manifest`) into each operation and returning the manifest that would be
persisted; `SemVer` is a major/minor/patch triple with lexicographic
order, timestamps are integers.
-/

namespace Updata

/-- Semantic version: major.minor.patch, lexicographically ordered. -/
structure SemVer where
  major : Nat
  minor : Nat
  patch : Nat
deriving DecidableEq, Repr

/-- Lexicographic order on semantic versions, as a proposition. -/
def SemVer.leP (a b : SemVer) : Prop :=
  a.major < b.major ∨
    (a.major = b.major ∧
      (a.minor < b.minor ∨ (a.minor = b.minor ∧ a.patch ≤ b.patch)))

instance (a b : SemVer) : Decidable (SemVer.leP a b) := by
  unfold SemVer.leP
  infer_instance

/-- Boolean comparison used by the embedded operations. -/
def SemVer.le (a b : SemVer) : Bool := decide (SemVer.leP a b)

/-- Maximum of two semantic versions (right-biased on ties). -/
def vmax (a b : SemVer) : SemVer := if SemVer.le a b then b else a


/-- Data-store schema version: major.minor. -/
structure DataVersion where
  major : Nat
  minor : Nat
deriving DecidableEq, Repr

/-- The three named image artifact identifiers of an update. -/
structure Images where
  root : String
  boot : String
  hash : String
deriving DecidableEq, Repr

/-- One update record of the catalog.  Waves are (bound, start-time)
pairs kept unique by bound. -/
structure Update where
  variant : String
  arch : String
  version : SemVer
  max_version : SemVer
  waves : List (Nat × Int)
  images : Images
  datastore_version : DataVersion
deriving DecidableEq, Repr

/-- One migration step between data-store versions. -/
structure Migration where
  from_version : DataVersion
  to_version : DataVersion
  name : String
deriving DecidableEq, Repr

/-- The portion of a release description consumed by `set-migrations`. -/
structure Release where
  migrations : List Migration
deriving DecidableEq, Repr

/-- The root manifest document: update catalog, migration list and the
image-version to data-store-version map (an association list with unique
keys, standing for the ordered map of the source). -/
structure Manifest where
  updates : List Update
  migrations : List Migration
  datastore_versions : List (SemVer × DataVersion)
deriving DecidableEq, Repr

/-- `Manifest::default()`: the empty manifest. -/
def Manifest.default : Manifest := ⟨[], [], []⟩

/-- Lookup in the datastore-version map. -/
def mapLookup (k : SemVer) : List (SemVer × DataVersion) → Option DataVersion
  | [] => none
  | (k', v) :: rest => if k' = k then some v else mapLookup k rest

/-- Insert/overwrite in the datastore-version map. -/
def mapInsert (k : SemVer) (v : DataVersion) :
    List (SemVer × DataVersion) → List (SemVer × DataVersion)
  | [] => [(k, v)]
  | (k', v') :: rest =>
    if k' = k then (k, v) :: rest else (k', v') :: mapInsert k v rest

/-- Remove a key from the datastore-version map. -/
def mapErase (k : SemVer) (l : List (SemVer × DataVersion)) :
    List (SemVer × DataVersion) :=
  l.filter (fun p => decide (p.1 ≠ k))

/-- Load errors of the persistence collaborator, split into the
file-absent case and every other (e.g. decode) failure. -/
inductive LoadError
  | fileAbsent
  | decodeFailure
deriving DecidableEq, Repr

/-- Error kinds surfaced by the operations. -/
inductive Err
  | duplicateUpdate
  | invalidBound
  | waveOrderingViolation
  | waveStartArg
  | loadFailure (e : LoadError)
  | configRead
  | releaseParse
deriving DecidableEq, Repr

/-- Does an update match the optional arch/variant filters?
Unfiltered (`none`) matches everything. -/
def filterMatch (u : Update) (archFilter variantFilter : Option String) : Bool :=
  (match archFilter with
    | some a => u.arch == a
    | none => true) &&
  (match variantFilter with
    | some v => u.variant == v
    | none => true)

/-- Modelled from the spec: `Manifest::update_max_version` of the
`update_metadata` crate (not part of the given source tree).  "For every
Update whose (variant, architecture) matches the filters (unfiltered =
all groups present), sets `max_version = max(existing max_version,
new_ceiling)`." -/
def Manifest.update_max_version (m : Manifest) (v : SemVer)
    (archFilter variantFilter : Option String) : Manifest :=
  { m with updates := m.updates.map (fun u =>
      if filterMatch u archFilter variantFilter then
        { u with max_version := vmax u.max_version v }
      else u) }

/-- Does an update match a (variant, architecture, version) triple
exactly? -/
def matchesTriple (variant arch : String) (version : SemVer) (u : Update) : Bool :=
  u.variant == variant && u.arch == arch && u.version == version

/-- The catalog order: `a` precedes `b` when `b`'s version is at most
`a`'s (descending by version, so the head carries the maximum). -/
def descR (a b : Update) : Prop := SemVer.le b.version a.version = true

instance : DecidableRel descR := fun a b => by
  unfold descR
  infer_instance

instance : IsTotal Update descR := ⟨fun a b => by
  unfold descR SemVer.le
  simp only [decide_eq_true_iff]
  unfold SemVer.leP
  omega⟩

instance : IsTrans Update descR := ⟨fun a b c hab hbc => by
  unfold descR SemVer.le at *
  simp only [decide_eq_true_iff] at *
  unfold SemVer.leP at *
  omega⟩

/-- Insert an update into a list kept sorted by descending version
(the head always carries the maximum version). -/
def insertDesc (u : Update) (l : List Update) : List Update :=
  List.orderedInsert descR u l

/-- Modelled from the spec: `Manifest::add_update` of the
`update_metadata` crate (not part of the given source tree).  "Rejects if
an Update with the same (variant, architecture, version) already exists
(`DuplicateUpdate`).  Inserts the new record, maintaining
descending-version order.  If `max_version` is provided, invokes the
Version Ceiling Tracker for this (variant, architecture) group with the
supplied value.  Also inserts/overwrites the Datastore Version Map entry
for `version`."  The spec leaves the new record's own `max_version`
unspecified when no ceiling is supplied; we default it to the catalog
head's ceiling, falling back to the record's own version (this case is
not load-bearing for any claim). -/
def Manifest.add_update (m : Manifest) (image_version : SemVer)
    (max_version : Option SemVer) (datastore_version : DataVersion)
    (arch variant : String) (images : Images) : Except Err Manifest :=
  if m.updates.any (matchesTriple variant arch image_version) then
    .error .duplicateUpdate
  else
    let maxv : SemVer :=
      match max_version with
      | some v => v
      | none =>
        match m.updates.head? with
        | some u => u.max_version
        | none => image_version
    let u : Update := ⟨variant, arch, image_version, maxv, [], images, datastore_version⟩
    let m' : Manifest := { m with
      updates := insertDesc u m.updates,
      datastore_versions := mapInsert image_version datastore_version m.datastore_versions }
    .ok (match max_version with
      | some v => m'.update_max_version v (some arch) (some variant)
      | none => m')

/-- Apply a fallible function to every list element in order, stopping
at the first error (the sequential for-loop of the source). -/
def mapME (f : α → Except Err β) : List α → Except Err (List β)
  | [] => .ok []
  | x :: xs =>
    match f x with
    | .error e => .error e
    | .ok y =>
      match mapME f xs with
      | .error e => .error e
      | .ok ys => .ok (y :: ys)

/-- Insert a (bound, start) wave into a list kept sorted by bound,
overwriting an existing wave with the same bound. -/
def insertWave (bound : Nat) (start : Int) : List (Nat × Int) → List (Nat × Int)
  | [] => [(bound, start)]
  | (b, t) :: rest =>
    if bound < b then (bound, start) :: (b, t) :: rest
    else if bound = b then (bound, start) :: rest
    else (b, t) :: insertWave bound start rest

/-- Modelled from the spec: the per-update wave insertion of the
`update_metadata` crate (not part of the given source tree).  "`bound`
must lie in [0, 2048); out-of-range fails with `InvalidBound`.  [The new
wave] must satisfy `start_time >= start_time of every existing wave with
smaller bound` and `start_time <= start_time of every existing wave with
larger bound`.  Violation fails with `WaveOrderingViolation`.  Duplicate
`bound` for the same Update overwrites the existing wave's `start_time`
only if the overwrite does not break monotonicity, else fails." -/
def Update.update_wave (u : Update) (bound : Nat) (start : Int) : Except Err Update :=
  if 2048 ≤ bound then .error .invalidBound
  else if u.waves.any (fun w => decide (w.1 < bound ∧ start < w.2)) then
    .error .waveOrderingViolation
  else if u.waves.any (fun w => decide (bound < w.1 ∧ w.2 < start)) then
    .error .waveOrderingViolation
  else .ok { u with waves := insertWave bound start u.waves }

/-- Modelled from the spec: `Manifest::add_wave` of the `update_metadata`
crate (not part of the given source tree).  "Locates every Update
matching (variant, architecture, version) ... the operation reports the
count of matches (`usize`) ... For each match, validates the new Wave
against the monotonicity invariant ... Violation fails ... and the wave
set is left unchanged (atomic per call)."  The functional embedding is
atomic by construction: on error no manifest is produced. -/
def Manifest.add_wave (m : Manifest) (variant arch : String) (version : SemVer)
    (bound : Nat) (start : Int) : Except Err (Manifest × Nat) :=
  match mapME (fun u =>
      if matchesTriple variant arch version u then u.update_wave bound start
      else .ok u) m.updates with
  | .error e => .error e
  | .ok updates' =>
    .ok ({ m with updates := updates' },
      (m.updates.filter (matchesTriple variant arch version)).length)

/-- Arguments of the `add-update` subcommand (`AddUpdateArgs` in the
source, minus the file path, which is replaced by the load result). -/
structure AddUpdateArgs where
  variant : String
  image_version : SemVer
  arch : String
  datastore_version : DataVersion
  max_version : Option SemVer
  root : String
  boot : String
  hash : String
deriving DecidableEq, Repr

/-- `AddUpdateArgs::run` from the source: any load failure (the source
matches `Ok(m) => m, _ => Manifest::default()`, with a `TODO only if
EEXIST` comment) falls back to the empty manifest; then delegates to
`add_update` and persists the result. -/
def AddUpdateArgs.run (self : AddUpdateArgs)
    (loadResult : Except LoadError Manifest) : Except Err Manifest :=
  let manifest : Manifest :=
    match loadResult with
    | .ok m => m
    | _ => Manifest.default
  manifest.add_update self.image_version self.max_version self.datastore_version
    self.arch self.variant ⟨self.root, self.boot, self.hash⟩

/-- Arguments of the `remove-update` subcommand. -/
structure RemoveUpdateArgs where
  variant : String
  image_version : SemVer
  arch : String
  cleanup : Bool
deriving DecidableEq, Repr

/-- `RemoveUpdateArgs::run` from the source: retain every update that
does not exactly match the (arch, variant, version) triple; if `cleanup`
is set and no remaining update carries the removed version, erase its
datastore-version mapping; never touches `max_version` or migrations.
Returns the manifest that is persisted together with the reported
"current maximum version" (the head of the catalog, if any). -/
def RemoveUpdateArgs.run (self : RemoveUpdateArgs)
    (loadResult : Except LoadError Manifest) :
    Except Err (Manifest × Option SemVer) :=
  match loadResult with
  | .error e => .error (.loadFailure e)
  | .ok m =>
    let m := { m with updates := m.updates.filter (fun u =>
        u.arch != self.arch || u.variant != self.variant ||
          u.version != self.image_version) }
    let m :=
      if self.cleanup then
        let remaining := m.updates.filter (fun u => u.version == self.image_version)
        if remaining.isEmpty then
          { m with datastore_versions := mapErase self.image_version m.datastore_versions }
        else m
      else m
    .ok (m, (m.updates.head?).map Update.version)

/-- `MigrationArgs::set` from the source: load the target manifest,
parse the release description, replace the manifest's `migrations`
section with the release's list, persist. -/
def MigrationArgs.set (loadTo : Except LoadError Manifest)
    (loadFrom : Except Err Release) : Except Err Manifest :=
  match loadTo with
  | .error e => .error (.loadFailure e)
  | .ok m =>
    match loadFrom with
    | .error e => .error e
    | .ok release => .ok { m with migrations := release.migrations }

/-- Arguments of the `set-max-version` subcommand. -/
structure MaxVersionArgs where
  max_version : SemVer
deriving DecidableEq, Repr

/-- `MaxVersionArgs::run` from the source: load, raise the ceiling with
no filters, persist. -/
def MaxVersionArgs.run (self : MaxVersionArgs)
    (loadResult : Except LoadError Manifest) : Except Err Manifest :=
  match loadResult with
  | .error e => .error (.loadFailure e)
  | .ok m => .ok (m.update_max_version self.max_version none none)

/-- Arguments of the `add-version-mapping` subcommand. -/
structure MappingArgs where
  image_version : SemVer
  data_version : DataVersion
deriving DecidableEq, Repr

/-- `MappingArgs::run` from the source: insert the (image version,
data-store version) pair into the map, returning the replaced old value
(the source only warns about it); no update record is modified. -/
def MappingArgs.run (self : MappingArgs)
    (loadResult : Except LoadError Manifest) :
    Except Err (Manifest × Option DataVersion) :=
  match loadResult with
  | .error e => .error (.loadFailure e)
  | .ok m =>
    let old := mapLookup self.image_version m.datastore_versions
    let newMap := mapInsert self.image_version self.data_version m.datastore_versions
    .ok ({ m with datastore_versions := newMap }, old)

/-- Arguments of the `add-wave` / `remove-wave` subcommands. -/
structure WaveArgs where
  variant : String
  image_version : SemVer
  arch : String
  bound : Nat
  start : Option Int
deriving DecidableEq, Repr

/-- `WaveArgs::add` from the source: load, require a start time
(`error::WaveStartArg` otherwise), delegate to `add_wave`; when more than
one update matched, only a warning is emitted (returned here as the
Boolean flag) and the operation still persists and succeeds. -/
def WaveArgs.add (self : WaveArgs)
    (loadResult : Except LoadError Manifest) : Except Err (Manifest × Bool) :=
  match loadResult with
  | .error e => .error (.loadFailure e)
  | .ok m =>
    match self.start with
    | none => .error .waveStartArg
    | some start =>
      match m.add_wave self.variant self.arch self.image_version self.bound start with
      | .error e => .error e
      | .ok (m', n) => .ok (m', decide (1 < n))

/-! ### Invariants -/

/-- The wave monotonicity invariant of one wave list: waves with smaller
bounds never start later. -/
def wavesOrdered (ws : List (Nat × Int)) : Prop :=
  ∀ a ∈ ws, ∀ b ∈ ws, a.1 < b.1 → a.2 ≤ b.2

instance (ws : List (Nat × Int)) : Decidable (wavesOrdered ws) := by
  unfold wavesOrdered
  infer_instance

/-- The wave invariant over every update of a manifest. -/
def manifestWavesOrdered (m : Manifest) : Prop :=
  ∀ u ∈ m.updates, wavesOrdered u.waves

instance (m : Manifest) : Decidable (manifestWavesOrdered m) := by
  unfold manifestWavesOrdered
  infer_instance

/-- The datastore-map synchronisation invariant: every update's own
`datastore_version` copy agrees with the map entry for its version. -/
def dsSync (m : Manifest) : Prop :=
  ∀ u ∈ m.updates, mapLookup u.version m.datastore_versions = some u.datastore_version

instance (m : Manifest) : Decidable (dsSync m) := by
  unfold dsSync
  infer_instance

/-- The catalog ordering invariant: updates sorted by descending
version. -/
def catalogSorted (l : List Update) : Prop := List.Sorted descR l

/-- Lookup of a wave start time by bound. -/
def lookupWave (b : Nat) : List (Nat × Int) → Option Int
  | [] => none
  | (b', t) :: rest => if b' = b then some t else lookupWave b rest

/-! ### Concrete sample values, used by witnesses and counterexamples -/

def v123 : SemVer := ⟨1, 2, 3⟩
def v124 : SemVer := ⟨1, 2, 4⟩
def v125 : SemVer := ⟨1, 2, 5⟩
def dv10 : DataVersion := ⟨1, 0⟩
def dv11 : DataVersion := ⟨1, 1⟩
def dv20 : DataVersion := ⟨2, 0⟩
def sampleImages : Images := ⟨"root", "boot", "hash"⟩

/-- A sample update record at version 1.2.3. -/
def u123 : Update := ⟨"yum", "x86_64", v123, v123, [], sampleImages, dv10⟩

/-- The sample update with one wave: bound 1024, start time 100. -/
def u123w : Update := { u123 with waves := [(1024, 100)] }

/-- A sample manifest holding the update with one wave. -/
def m123w : Manifest := ⟨[u123w], [], [(v123, dv10)]⟩

/-- A manifest holding two updates that share (variant, arch, version):
the multiplicity case of C10. -/
def mDouble : Manifest :=
  ⟨[u123, { u123 with images := ⟨"root2", "boot2", "hash2"⟩ }], [], [(v123, dv10)]⟩

/-- The manifest mDouble after the wave (1024, 100) was applied to both
matching updates. -/
def mDouble' : Manifest :=
  ⟨[{ u123 with waves := [(1024, 100)] },
    { u123 with images := ⟨"root2", "boot2", "hash2"⟩, waves := [(1024, 100)] }],
   [], [(v123, dv10)]⟩

/-- A sample update record at version 1.2.4. -/
def u124 : Update := ⟨"yum", "x86_64", v124, v124, [], sampleImages, dv10⟩

/-- A sample update record at version 1.2.5 requiring datastore 1.1. -/
def u125 : Update := ⟨"yum", "x86_64", v125, v125, [], sampleImages, dv11⟩

/-- A catalog with three versions and their datastore mappings (the
scenario of tests::datastore_mapping). -/
def mC4 : Manifest :=
  ⟨[u123, u124, u125], [], [(v123, dv10), (v125, dv11), (v124, dv10)]⟩

/-- mC4 after removing (yum, x86_64, 1.2.4) with cleanup: the update and
its now-unreferenced mapping are gone, the others survive. -/
def mC4after : Manifest :=
  ⟨[u123, u125], [], [(v123, dv10), (v125, dv11)]⟩

/-- Sample migration steps. -/
def mig1 : Migration := ⟨dv10, dv11, "migrate_a"⟩

def mig2 : Migration := ⟨dv11, dv20, "migrate_b"⟩

def mig3 : Migration := ⟨dv11, dv20, "migrate_c"⟩

/-- A manifest with two updates, one migration and two mappings. -/
def mC9 : Manifest :=
  ⟨[u123, u124], [mig1], [(v123, dv10), (v124, dv10)]⟩

/-- mC9 after removing (yum, x86_64, 1.2.4) with cleanup. -/
def mC9after : Manifest := ⟨[u123], [mig1], [(v123, dv10)]⟩

/-- A release description carrying a fresh migration list. -/
def relNew : Release := ⟨[mig2, mig3]⟩

/-- mC9 with its migration section replaced by relNew's list. -/
def mPost : Manifest :=
  ⟨[u123, u124], [mig2, mig3], [(v123, dv10), (v124, dv10)]⟩

/-- A manifest satisfying the datastore-map synchronisation invariant. -/
def mSync : Manifest := ⟨[u123], [], [(v123, dv10)]⟩

/-- mSync after add-version-mapping overwrote the map entry for 1.2.3
with datastore 2.0: the update record still carries 1.0. -/
def mSyncAfter : Manifest := ⟨[u123], [], [(v123, dv20)]⟩

/-- Sample arguments for the add-update subcommand. -/
def aAdd : AddUpdateArgs :=
  ⟨"yum", v123, "x86_64", dv10, some v123, "root", "boot", "hash"⟩

/-- Fold a sequence of ceiling raises (value, arch filter, variant
filter) over a manifest, as repeated set-max-version / add-update
ceiling invocations do. -/
def raiseAll (m : Manifest)
    (cs : List (SemVer × Option String × Option String)) : Manifest :=
  cs.foldl (fun acc c => acc.update_max_version c.1 c.2.1 c.2.2) m

/-- The add-update sequence of tests::max_versions: versions 1.2.3,
1.2.5, 1.2.4 with ceilings 1.2.3, 1.2.3, 1.2.4. -/
def c2Chain : Except Err Manifest :=
  match Manifest.default.add_update v123 (some v123) dv10 "x86_64" "yum" sampleImages with
  | .error e => .error e
  | .ok m1 =>
    match m1.add_update v125 (some v123) dv10 "x86_64" "yum" sampleImages with
    | .error e => .error e
    | .ok m2 => m2.add_update v124 (some v124) dv10 "x86_64" "yum" sampleImages

/-- Run a sequence of add_update calls, stopping at the first error. -/
def applyAdds (m : Manifest) : List AddUpdateArgs → Except Err Manifest
  | [] => .ok m
  | r :: rs =>
    match m.add_update r.image_version r.max_version r.datastore_version
        r.arch r.variant ⟨r.root, r.boot, r.hash⟩ with
    | .error e => .error e
    | .ok m' => applyAdds m' rs

/-- The add-update request sequence of tests::max_versions. -/
def rs3 : List AddUpdateArgs :=
  [⟨"yum", v123, "x86_64", dv10, some v123, "root", "boot", "hash"⟩,
   ⟨"yum", v125, "x86_64", dv10, some v123, "root", "boot", "hash"⟩,
   ⟨"yum", v124, "x86_64", dv10, some v124, "root", "boot", "hash"⟩]

/-- Version 1.2.5 record after the rs3 sequence (ceiling 1.2.4). -/
def u125f : Update := ⟨"yum", "x86_64", v125, v124, [], sampleImages, dv10⟩

/-- Version 1.2.3 record after the rs3 sequence (ceiling 1.2.4). -/
def u123f : Update := ⟨"yum", "x86_64", v123, v124, [], sampleImages, dv10⟩

/-- The manifest produced by applying rs3 to the empty manifest: the
catalog is sorted by descending version with 1.2.5 at its head. -/
def mC3 : Manifest :=
  ⟨[u125f, u124, u123f], [],
   [(v123, dv10), (v125, dv10), (v124, dv10)]⟩

/-! ### Theorems -/

theorem SemVer.le_iff (a b : SemVer) : SemVer.le a b = true ↔ SemVer.leP a b :=
  decide_eq_true_iff

theorem SemVer.le_refl (a : SemVer) : SemVer.le a a = true := by
  rw [SemVer.le_iff]
  unfold SemVer.leP
  omega

theorem SemVer.le_trans {a b c : SemVer} (hab : SemVer.le a b = true)
    (hbc : SemVer.le b c = true) : SemVer.le a c = true := by
  rw [SemVer.le_iff] at *
  unfold SemVer.leP at *
  omega

theorem SemVer.le_total (a b : SemVer) :
    SemVer.le a b = true ∨ SemVer.le b a = true := by
  rw [SemVer.le_iff, SemVer.le_iff]
  unfold SemVer.leP
  omega

theorem SemVer.le_antisymm {a b : SemVer} (hab : SemVer.le a b = true)
    (hba : SemVer.le b a = true) : a = b := by
  rw [SemVer.le_iff] at *
  unfold SemVer.leP at *
  obtain ⟨ma, mia, pa⟩ := a
  obtain ⟨mb, mib, pb⟩ := b
  dsimp only at hab hba
  simp only [SemVer.mk.injEq]
  omega

theorem le_vmax_left (a b : SemVer) : SemVer.le a (vmax a b) = true := by
  unfold vmax
  split
  · assumption
  · exact SemVer.le_refl a

theorem le_vmax_right (a b : SemVer) : SemVer.le b (vmax a b) = true := by
  unfold vmax
  split
  · exact SemVer.le_refl b
  · rcases SemVer.le_total a b with h | h
    · simp_all
    · exact h

theorem vmax_eq_left_or_right (a b : SemVer) : vmax a b = a ∨ vmax a b = b := by
  unfold vmax
  split <;> simp

theorem vmax_of_le {a b : SemVer} (h : SemVer.le b a = true) : vmax a b = a := by
  unfold vmax
  split
  · exact SemVer.le_antisymm h (by assumption)
  · rfl

/-! ### Map lemmas -/

theorem mapLookup_mapInsert_self (k : SemVer) (v : DataVersion)
    (l : List (SemVer × DataVersion)) : mapLookup k (mapInsert k v l) = some v := by
  induction l with
  | nil => simp [mapInsert, mapLookup]
  | cons p rest ih =>
    obtain ⟨k', v'⟩ := p
    by_cases h : k' = k
    · simp [mapInsert, mapLookup, h]
    · simp [mapInsert, mapLookup, h, ih]

theorem mapLookup_mapInsert_ne (k k' : SemVer) (v : DataVersion)
    (l : List (SemVer × DataVersion)) (h : k' ≠ k) :
    mapLookup k' (mapInsert k v l) = mapLookup k' l := by
  induction l with
  | nil => simp [mapInsert, mapLookup, Ne.symm h]
  | cons p rest ih =>
    obtain ⟨k0, v0⟩ := p
    by_cases h0 : k0 = k
    · subst h0
      simp [mapInsert, mapLookup, Ne.symm h]
    · simp only [mapInsert, if_neg h0, mapLookup]
      by_cases h1 : k0 = k'
      · simp [mapLookup, h1]
      · simp [mapLookup, h1, ih]

theorem mapLookup_mapErase_self (k : SemVer) (l : List (SemVer × DataVersion)) :
    mapLookup k (mapErase k l) = none := by
  induction l with
  | nil => simp [mapErase, mapLookup]
  | cons p rest ih =>
    obtain ⟨k0, v0⟩ := p
    by_cases h0 : k0 = k
    · simpa [mapErase, h0] using ih
    · simpa [mapErase, mapLookup, h0] using ih

theorem mapLookup_mapErase_ne (k k' : SemVer) (l : List (SemVer × DataVersion))
    (h : k' ≠ k) : mapLookup k' (mapErase k l) = mapLookup k' l := by
  induction l with
  | nil => simp [mapErase, mapLookup]
  | cons p rest ih =>
    obtain ⟨k0, v0⟩ := p
    by_cases h0 : k0 = k
    · subst h0
      simpa [mapErase, mapLookup, Ne.symm h] using ih
    · by_cases h1 : k0 = k'
      · subst h1
        simp [mapErase, mapLookup, h0]
      · simpa [mapErase, mapLookup, h0, h1] using ih

/-! ### mapME lemmas -/

theorem mapME_ok_mem {f : α → Except Err β} {l : List α} {l' : List β}
    (h : mapME f l = .ok l') : ∀ y ∈ l', ∃ x ∈ l, f x = .ok y := by
  induction l generalizing l' with
  | nil =>
    simp only [mapME] at h
    cases h
    simp
  | cons x xs ih =>
    simp only [mapME] at h
    cases hfx : f x with
    | error e => rw [hfx] at h; cases h
    | ok y0 =>
      rw [hfx] at h
      cases hrest : mapME f xs with
      | error e => rw [hrest] at h; cases h
      | ok ys =>
        rw [hrest] at h
        cases h
        intro y hy
        rcases List.mem_cons.mp hy with rfl | hy'
        · exact ⟨x, List.mem_cons_self .., hfx⟩
        · rcases ih hrest y hy' with ⟨x', hx', hfx'⟩
          exact ⟨x', List.mem_cons_of_mem _ hx', hfx'⟩

theorem mapME_error_of_mem {f : α → Except Err β} {l : List α} {e : Err}
    (hall : ∀ x ∈ l, (∃ y, f x = .ok y) ∨ f x = .error e)
    (hex : ∃ x ∈ l, f x = .error e) : mapME f l = .error e := by
  induction l with
  | nil => rcases hex with ⟨x, hx, _⟩; cases hx
  | cons x xs ih =>
    simp only [mapME]
    cases hfx : f x with
    | error e0 =>
      rcases hall x (List.mem_cons_self ..) with ⟨y, hy⟩ | he
      · rw [hfx] at hy; cases hy
      · rw [hfx] at he
        cases he
        rfl
    | ok y =>
      have hex' : ∃ x' ∈ xs, f x' = .error e := by
        rcases hex with ⟨x', hx', he'⟩
        rcases List.mem_cons.mp hx' with rfl | hmem
        · rw [hfx] at he'; cases he'
        · exact ⟨x', hmem, he'⟩
      rw [ih (fun x' hx' => hall x' (List.mem_cons_of_mem _ hx')) hex']

/-! ### Wave lemmas -/

theorem mem_insertWave {x : Nat × Int} {b : Nat} {s : Int} {ws : List (Nat × Int)}
    (h : x ∈ insertWave b s ws) : x = (b, s) ∨ x ∈ ws := by
  induction ws with
  | nil => simpa [insertWave] using h
  | cons w rest ih =>
    obtain ⟨b0, t0⟩ := w
    simp only [insertWave] at h
    split at h
    · rcases List.mem_cons.mp h with rfl | h'
      · exact Or.inl rfl
      · exact Or.inr h'
    · split at h
      · rcases List.mem_cons.mp h with rfl | h'
        · exact Or.inl rfl
        · exact Or.inr (List.mem_cons_of_mem _ h')
      · rcases List.mem_cons.mp h with rfl | h'
        · exact Or.inr (List.mem_cons_self ..)
        · rcases ih h' with h'' | h''
          · exact Or.inl h''
          · exact Or.inr (List.mem_cons_of_mem _ h'')

theorem lookupWave_insertWave_self (b : Nat) (s : Int) (ws : List (Nat × Int)) :
    lookupWave b (insertWave b s ws) = some s := by
  induction ws with
  | nil => simp [insertWave, lookupWave]
  | cons w rest ih =>
    obtain ⟨b0, t0⟩ := w
    simp only [insertWave]
    split
    · simp [lookupWave]
    · split
      · simp [lookupWave]
      · have hne : b0 ≠ b := by omega
        simp [lookupWave, hne, ih]

theorem update_wave_ok_ordered {u u' : Update} {bound : Nat} {start : Int}
    (hord : wavesOrdered u.waves) (h : u.update_wave bound start = .ok u') :
    wavesOrdered u'.waves := by
  unfold Update.update_wave at h
  split at h
  · cases h
  next =>
    split at h
    · cases h
    next hlt =>
      split at h
      · cases h
      next hgt =>
        cases h
        intro a ha b hb hab
        rcases mem_insertWave ha with rfl | ha' <;>
          rcases mem_insertWave hb with rfl | hb'
        · omega
        · have hnb : ¬ (bound < b.1 ∧ b.2 < start) := fun hcon =>
            hgt (List.any_eq_true.mpr ⟨b, hb', by simpa using hcon⟩)
          simp only at hab ⊢
          omega
        · have hna : ¬ (a.1 < bound ∧ start < a.2) := fun hcon =>
            hlt (List.any_eq_true.mpr ⟨a, ha', by simpa using hcon⟩)
          simp only at hab ⊢
          omega
        · exact hord a ha' b hb' hab

theorem update_wave_ok_or_violation (u : Update) (bound : Nat) (start : Int)
    (hb : bound < 2048) :
    (∃ u', u.update_wave bound start = .ok u') ∨
      u.update_wave bound start = .error .waveOrderingViolation := by
  unfold Update.update_wave
  have : ¬ 2048 ≤ bound := by omega
  simp only [if_neg this]
  split
  · exact Or.inr rfl
  · split
    · exact Or.inr rfl
    · exact Or.inl ⟨_, rfl⟩

theorem update_wave_violation {u : Update} {bound : Nat} {start : Int}
    (hb : bound < 2048)
    (hvio : ∃ w ∈ u.waves,
      (w.1 < bound ∧ start < w.2) ∨ (bound < w.1 ∧ w.2 < start)) :
    u.update_wave bound start = .error .waveOrderingViolation := by
  unfold Update.update_wave
  have hnb : ¬ 2048 ≤ bound := by omega
  rw [if_neg hnb]
  rcases hvio with ⟨w, hw, hcase⟩
  by_cases h1 : (u.waves.any fun w => decide (w.1 < bound ∧ start < w.2)) = true
  · rw [if_pos h1]
  · rw [if_neg h1]
    have h2 : (u.waves.any fun w => decide (bound < w.1 ∧ w.2 < start)) = true := by
      rcases hcase with hc | hc
      · exact absurd (List.any_eq_true.mpr ⟨w, hw, by simpa using hc⟩) h1
      · exact List.any_eq_true.mpr ⟨w, hw, by simpa using hc⟩
    rw [if_pos h2]

theorem update_wave_preserves_key {u u' : Update} {bound : Nat} {start : Int}
    (h : u.update_wave bound start = .ok u') :
    u'.variant = u.variant ∧ u'.arch = u.arch ∧ u'.version = u.version ∧
      u'.max_version = u.max_version ∧ u'.datastore_version = u.datastore_version ∧
      u'.waves = insertWave bound start u.waves := by
  unfold Update.update_wave at h
  split at h
  · cases h
  · split at h
    · cases h
    · split at h
      · cases h
      · cases h
        exact ⟨rfl, rfl, rfl, rfl, rfl, rfl⟩

/-! ### Claims -/

/-- C1: For every Update and every pair of its waves A, B with
A.bound < B.bound, A.start_time <= B.start_time holds after every
successful add_wave; an add_wave whose (bound, start_time) would violate
this ordering fails with WaveOrderingViolation and (the embedding being
functional) leaves the wave set unchanged. -/
theorem add_wave_ordering (m : Manifest) (variant arch : String) (version : SemVer)
    (bound : Nat) (start : Int) (hinv : manifestWavesOrdered m) :
    (∀ m' n, m.add_wave variant arch version bound start = .ok (m', n) →
      manifestWavesOrdered m') ∧
    (bound < 2048 →
      (∃ u ∈ m.updates, matchesTriple variant arch version u = true ∧
        ∃ w ∈ u.waves, (w.1 < bound ∧ start < w.2) ∨ (bound < w.1 ∧ w.2 < start)) →
      m.add_wave variant arch version bound start = .error .waveOrderingViolation) := by
  constructor
  · intro m' n h
    unfold Manifest.add_wave at h
    cases hmap : mapME (fun u =>
        if matchesTriple variant arch version u then u.update_wave bound start
        else .ok u) m.updates with
    | error e => rw [hmap] at h; cases h
    | ok updates' =>
      rw [hmap] at h
      cases h
      intro u' hu'
      rcases mapME_ok_mem hmap u' hu' with ⟨u, hu, hfu⟩
      split at hfu
      · exact update_wave_ok_ordered (hinv u hu) hfu
      · cases hfu
        exact hinv _ hu
  · intro hb hex
    rcases hex with ⟨u, hu, hmatch, hvio⟩
    have herr : (if matchesTriple variant arch version u then u.update_wave bound start
        else .ok u) = .error .waveOrderingViolation := by
      rw [if_pos hmatch]
      exact update_wave_violation hb hvio
    have hall : ∀ x ∈ m.updates,
        (∃ y, (if matchesTriple variant arch version x then x.update_wave bound start
          else .ok x) = .ok y) ∨
        (if matchesTriple variant arch version x then x.update_wave bound start
          else .ok x) = .error .waveOrderingViolation := by
      intro x _
      by_cases hm : matchesTriple variant arch version x = true
      · rw [if_pos hm]
        exact update_wave_ok_or_violation x bound start hb
      · rw [if_neg hm]
        exact Or.inl ⟨x, rfl⟩
    have hmap := mapME_error_of_mem hall ⟨u, hu, herr⟩
    unfold Manifest.add_wave
    rw [hmap]

/-- Witness for C1 at a concrete input: the manifest holding one update
with wave (1024, 100); adding bound 1536 with the earlier start time 50
fails with WaveOrderingViolation (the scenario of tests::ordered_waves). -/
theorem add_wave_ordering_witness :
    m123w.add_wave "yum" "x86_64" v123 1536 50 = .error .waveOrderingViolation :=
  (add_wave_ordering m123w "yum" "x86_64" v123 1536 50 (by decide)).2
    (by decide) (by decide)

/-- C10: When add_wave finds more than one Update matching (variant,
architecture, version), the operation still succeeds (the wave command
returns Ok and the mutated manifest is persisted): the wave is applied to
every matching Update and the multiplicity is reported only as a warning
flag, never as an error. -/
theorem add_wave_multiple_matches_warn (a : WaveArgs) (m m' : Manifest)
    (start : Int) (n : Nat) (hstart : a.start = some start)
    (hadd : m.add_wave a.variant a.arch a.image_version a.bound start = .ok (m', n))
    (hn : 1 < n) :
    WaveArgs.add a (.ok m) = .ok (m', true) ∧
    ∀ u' ∈ m'.updates, matchesTriple a.variant a.arch a.image_version u' = true →
      lookupWave a.bound u'.waves = some start := by
  constructor
  · simp only [WaveArgs.add, hstart, hadd]
    simp [hn]
  · intro u' hu' hmatch'
    unfold Manifest.add_wave at hadd
    cases hmap : mapME (fun u =>
        if matchesTriple a.variant a.arch a.image_version u then
          u.update_wave a.bound start
        else .ok u) m.updates with
    | error e => rw [hmap] at hadd; cases hadd
    | ok updates' =>
      rw [hmap] at hadd
      cases hadd
      rcases mapME_ok_mem hmap u' hu' with ⟨u, hu, hfu⟩
      split at hfu
      · rcases update_wave_preserves_key hfu with ⟨-, -, -, -, -, hw⟩
        rw [hw]
        exact lookupWave_insertWave_self ..
      next hnm =>
        cases hfu
        exact absurd hmatch' hnm

/-- Witness for C10 at a concrete input: two updates share the triple
(yum, x86_64, 1.2.3); adding wave (1024, 100) matches both (n = 2), the
command succeeds with the wave applied to both records and the warning
flag set. -/
theorem add_wave_multiple_matches_warn_witness :
    WaveArgs.add ⟨"yum", v123, "x86_64", 1024, some 100⟩ (.ok mDouble) =
      .ok (mDouble', true) :=
  (add_wave_multiple_matches_warn ⟨"yum", v123, "x86_64", 1024, some 100⟩
    mDouble mDouble' 100 2 rfl rfl (by decide)).1

/-- The retain predicate of RemoveUpdateArgs::run, characterised. -/
theorem removePred_iff (a : RemoveUpdateArgs) (u : Update) :
    (u.arch != a.arch || u.variant != a.variant || u.version != a.image_version) = true ↔
      ¬(u.variant = a.variant ∧ u.arch = a.arch ∧ u.version = a.image_version) := by
  simp only [Bool.or_eq_true, bne_iff_ne, ne_eq]
  tauto

/-- C4: remove_update with cleanup=true removes the Datastore Version
Map entry for the removed image version if and only if, after the
removal, no Update anywhere in the catalog has that exact version; if
any such Update remains, the mapping is left in the map. -/
theorem remove_update_cleanup (a : RemoveUpdateArgs) (m m' : Manifest)
    (rep : Option SemVer) (hcl : a.cleanup = true)
    (hok : RemoveUpdateArgs.run a (.ok m) = .ok (m', rep)) :
    ((∀ u ∈ m'.updates, u.version ≠ a.image_version) →
      mapLookup a.image_version m'.datastore_versions = none ∧
      ∀ k, k ≠ a.image_version →
        mapLookup k m'.datastore_versions = mapLookup k m.datastore_versions) ∧
    ((∃ u ∈ m'.updates, u.version = a.image_version) →
      m'.datastore_versions = m.datastore_versions) := by
  simp only [RemoveUpdateArgs.run] at hok
  rw [if_pos hcl] at hok
  split at hok
  next hemp =>
    cases hok
    constructor
    · intro _
      exact ⟨mapLookup_mapErase_self .., fun k hk => mapLookup_mapErase_ne _ _ _ hk⟩
    · intro hex
      rcases hex with ⟨u, hu, hv⟩
      simp only [List.isEmpty_iff, List.filter_eq_nil_iff] at hemp
      exact absurd (by simp [hv]) (hemp u hu)
  next hemp =>
    cases hok
    constructor
    · intro hall
      have hne : ¬ (List.filter (fun u => u.version == a.image_version)
          (List.filter (fun u =>
            u.arch != a.arch || u.variant != a.variant ||
              u.version != a.image_version) m.updates)) = [] := by
        intro hnil
        exact hemp (by simp [hnil])
      rcases List.exists_mem_of_ne_nil _ hne with ⟨u, hu⟩
      rcases List.mem_filter.mp hu with ⟨hu', hbeq⟩
      exact absurd (by simpa using hbeq) (hall u hu')
    · intro _
      rfl

/-- Witness for C4 at a concrete input: removing (yum, x86_64, 1.2.4)
with cleanup from a three-version catalog erases the 1.2.4 mapping (no
remaining update carries it). -/
theorem remove_update_cleanup_witness :
    mapLookup v124 mC4after.datastore_versions = none :=
  ((remove_update_cleanup ⟨"yum", v124, "x86_64", true⟩ mC4 mC4after
    (some v123) rfl rfl).1 (by decide)).1

/-- C5 counterexample: the datastore-map synchronisation invariant is
NOT preserved by add-version-mapping.  On a manifest where the single
update (version 1.2.3, datastore 1.0) agrees with the map, inserting the
mapping (1.2.3, 2.0) succeeds, leaves the update record untouched and
breaks the agreement. -/
theorem mapping_breaks_sync :
    dsSync mSync ∧
    MappingArgs.run ⟨v123, dv20⟩ (.ok mSync) = .ok (mSyncAfter, some dv10) ∧
    ¬ dsSync mSyncAfter :=
  ⟨by decide, rfl, by decide⟩

/-- C5 amended: add-version-mapping inserts or overwrites the map entry
for the supplied image version and leaves every Update record (and the
migration list) unchanged; the per-record datastore_version copies are
not updated, so the map and the copies may disagree afterwards. -/
theorem mapping_run_spec (a : MappingArgs) (m m' : Manifest)
    (old : Option DataVersion)
    (hok : MappingArgs.run a (.ok m) = .ok (m', old)) :
    m'.updates = m.updates ∧ m'.migrations = m.migrations ∧
    mapLookup a.image_version m'.datastore_versions = some a.data_version ∧
    (∀ k, k ≠ a.image_version →
      mapLookup k m'.datastore_versions = mapLookup k m.datastore_versions) ∧
    old = mapLookup a.image_version m.datastore_versions := by
  simp only [MappingArgs.run] at hok
  cases hok
  exact ⟨rfl, rfl, mapLookup_mapInsert_self .., fun k hk =>
    mapLookup_mapInsert_ne _ _ _ _ hk, rfl⟩

/-- Witness for C5 (amended) at a concrete input: the overwritten map
entry reads 2.0 afterwards. -/
theorem mapping_run_spec_witness :
    mapLookup v123 mSyncAfter.datastore_versions = some dv20 :=
  (mapping_run_spec ⟨v123, dv20⟩ mSync mSyncAfter (some dv10) rfl).2.2.1

/-- C6 (code-bug evidence): AddUpdateArgs::run treats EVERY load failure
like the file-absent case — a decode failure of a present file also
falls back to the empty manifest and the add succeeds, instead of
propagating an error (the source marks this with "TODO only if
EEXIST"). -/
theorem add_update_decode_failure_fallback :
    AddUpdateArgs.run aAdd (.error .decodeFailure) = .ok mSync ∧
    AddUpdateArgs.run aAdd (.error .fileAbsent) = .ok mSync :=
  ⟨rfl, rfl⟩

/-- C7: set_migrations replaces the manifest's migration set entirely
with the ordered step list of the release description and touches
nothing else; with the persistence collaborator required to round-trip
exactly (spec section 6), the reloaded list equals the source list in
content and order, whatever the previous list was. -/
theorem set_migrations_replaces (m : Manifest) (r : Release) (m' : Manifest)
    (hok : MigrationArgs.set (.ok m) (.ok r) = .ok m') :
    m'.migrations = r.migrations ∧ m'.updates = m.updates ∧
    m'.datastore_versions = m.datastore_versions := by
  simp only [MigrationArgs.set] at hok
  cases hok
  exact ⟨rfl, rfl, rfl⟩

/-- Witness for C7 at a concrete input: a manifest with a pre-existing
migration ends up with exactly the release's list. -/
theorem set_migrations_replaces_witness :
    mPost.migrations = relNew.migrations :=
  (set_migrations_replaces mC9 relNew mPost rfl).1

/-- C8: remove_update targeting a triple that matches no Update returns
success and leaves the catalog unchanged; when matches exist, exactly
the records matching the triple are removed. -/
theorem remove_update_noop (a : RemoveUpdateArgs) (m : Manifest) :
    (∃ m' rep, RemoveUpdateArgs.run a (.ok m) = .ok (m', rep)) ∧
    (∀ m' rep, RemoveUpdateArgs.run a (.ok m) = .ok (m', rep) →
      (∀ u, u ∈ m'.updates ↔ u ∈ m.updates ∧
        ¬(u.variant = a.variant ∧ u.arch = a.arch ∧ u.version = a.image_version)) ∧
      ((∀ u ∈ m.updates,
          ¬(u.variant = a.variant ∧ u.arch = a.arch ∧ u.version = a.image_version)) →
        m'.updates = m.updates)) := by
  constructor
  · exact ⟨_, _, rfl⟩
  · intro m' rep hok
    simp only [RemoveUpdateArgs.run] at hok
    cases hok
    constructor
    · intro u
      have hmem : u ∈ (List.filter (fun u =>
          u.arch != a.arch || u.variant != a.variant ||
            u.version != a.image_version) m.updates) ↔
          u ∈ m.updates ∧ ¬(u.variant = a.variant ∧ u.arch = a.arch ∧
            u.version = a.image_version) := by
        rw [List.mem_filter]
        exact and_congr_right fun _ => removePred_iff a u
      refine Iff.trans ?_ hmem
      constructor
      · intro hu
        split at hu
        · split at hu
          · exact hu
          · exact hu
        · exact hu
      · intro hu
        split
        · split
          · exact hu
          · exact hu
        · exact hu
    · intro hnone
      have hfil : List.filter (fun u =>
          u.arch != a.arch || u.variant != a.variant ||
            u.version != a.image_version) m.updates = m.updates :=
        List.filter_eq_self.mpr fun u hu => (removePred_iff a u).mpr (hnone u hu)
      split
      · split
        · simp [hfil]
        · simp [hfil]
      · simp [hfil]

/-- Witness for C8 at a concrete input: removing a triple absent from
the catalog leaves the updates exactly as they were. -/
theorem remove_update_noop_witness :
    (∃ m' rep, RemoveUpdateArgs.run ⟨"other", v124, "arm", true⟩ (.ok m123w) =
      .ok (m', rep)) ∧ m123w.updates = m123w.updates :=
  ⟨(remove_update_noop ⟨"other", v124, "arm", true⟩ m123w).1,
    ((remove_update_noop ⟨"other", v124, "arm", true⟩ m123w).2 m123w (some v123)
      rfl).2 (by decide)⟩

/-- C9: remove_update never lowers the version ceiling: every update
remaining after removal is byte-identical to one of the originals (so
its max_version is unchanged), and the migration set is untouched with
or without cleanup. -/
theorem remove_update_frame (a : RemoveUpdateArgs) (m m' : Manifest)
    (rep : Option SemVer)
    (hok : RemoveUpdateArgs.run a (.ok m) = .ok (m', rep)) :
    List.Sublist m'.updates m.updates ∧ (∀ u ∈ m'.updates, u ∈ m.updates) ∧
    m'.migrations = m.migrations := by
  simp only [RemoveUpdateArgs.run] at hok
  cases hok
  have hsub : List.Sublist (List.filter (fun u =>
      u.arch != a.arch || u.variant != a.variant ||
        u.version != a.image_version) m.updates) m.updates :=
    List.filter_sublist _
  refine ⟨?_, ?_, ?_⟩
  · split
    · split
      · exact hsub
      · exact hsub
    · exact hsub
  · intro u hu
    split at hu
    · split at hu
      · exact hsub.subset hu
      · exact hsub.subset hu
    · exact hsub.subset hu
  · split
    · split
      · rfl
      · rfl
    · rfl

/-- Witness for C9 at a concrete input: removing (yum, x86_64, 1.2.4)
with cleanup leaves the migration list untouched. -/
theorem remove_update_frame_witness :
    mC9after.migrations = mC9.migrations :=
  (remove_update_frame ⟨"yum", v124, "x86_64", true⟩ mC9 mC9after
    (some v123) rfl).2.2

/-! ### Ceiling lemmas -/

theorem map_id_of_mem {l : List α} {f : α → α} (h : ∀ x ∈ l, f x = x) :
    l.map f = l := by
  induction l with
  | nil => rfl
  | cons x xs ih =>
    simp [h x (List.mem_cons_self ..), ih fun y hy => h y (List.mem_cons_of_mem _ hy)]

theorem update_max_version_length (m : Manifest) (v : SemVer)
    (af vf : Option String) :
    (m.update_max_version v af vf).updates.length = m.updates.length := by
  simp [Manifest.update_max_version]

theorem update_max_version_get (m : Manifest) (v : SemVer) (af vf : Option String)
    (i : Nat) (h : i < m.updates.length)
    (h' : i < (m.update_max_version v af vf).updates.length) :
    (m.update_max_version v af vf).updates.get ⟨i, h'⟩ =
      if filterMatch (m.updates.get ⟨i, h⟩) af vf then
        { m.updates.get ⟨i, h⟩ with
          max_version := vmax (m.updates.get ⟨i, h⟩).max_version v }
      else m.updates.get ⟨i, h⟩ := by
  simp [Manifest.update_max_version, List.get_eq_getElem, List.getElem_map]

theorem raiseAll_length (m : Manifest)
    (cs : List (SemVer × Option String × Option String)) :
    (raiseAll m cs).updates.length = m.updates.length := by
  induction cs generalizing m with
  | nil => rfl
  | cons c cs ih =>
    have : raiseAll m (c :: cs) = raiseAll (m.update_max_version c.1 c.2.1 c.2.2) cs := rfl
    rw [this, ih, update_max_version_length]

theorem raiseAll_mono (m : Manifest)
    (cs : List (SemVer × Option String × Option String)) (i : Nat)
    (h : i < m.updates.length) (h' : i < (raiseAll m cs).updates.length) :
    SemVer.le (m.updates.get ⟨i, h⟩).max_version
      ((raiseAll m cs).updates.get ⟨i, h'⟩).max_version = true := by
  induction cs generalizing m with
  | nil => exact SemVer.le_refl _
  | cons c cs ih =>
    have hlen : i < (m.update_max_version c.1 c.2.1 c.2.2).updates.length := by
      rw [update_max_version_length]
      exact h
    have step : SemVer.le (m.updates.get ⟨i, h⟩).max_version
        ((m.update_max_version c.1 c.2.1 c.2.2).updates.get ⟨i, hlen⟩).max_version = true := by
      rw [update_max_version_get m c.1 c.2.1 c.2.2 i h hlen]
      split
      · exact le_vmax_left ..
      · exact SemVer.le_refl _
    exact SemVer.le_trans step (ih (m.update_max_version c.1 c.2.1 c.2.2) hlen h')

theorem update_max_version_no_effect (m : Manifest) (v : SemVer)
    (af vf : Option String)
    (h : ∀ u ∈ m.updates, filterMatch u af vf = true →
      SemVer.le v u.max_version = true) :
    m.update_max_version v af vf = m := by
  unfold Manifest.update_max_version
  have hmap : m.updates.map (fun u =>
      if filterMatch u af vf then { u with max_version := vmax u.max_version v }
      else u) = m.updates := by
    apply map_id_of_mem
    intro u hu
    by_cases hf : filterMatch u af vf = true
    · rw [if_pos hf, vmax_of_le (h u hu hf)]
    · rw [if_neg hf]
  rw [hmap]

/-- C2: raising the ceiling (set-max-version or the max_version argument
of add_update) sets each matching Update's max_version to
max(existing, supplied); the ceiling is monotonically non-decreasing
across any sequence of raises; a supplied value at most the current
ceiling has no effect; and the add-update sequence with ceilings 1.2.3,
1.2.3, 1.2.4 of tests::max_versions leaves every group member with
max_version 1.2.4. -/
theorem update_max_version_monotone (m : Manifest)
    (cs : List (SemVer × Option String × Option String)) :
    ((raiseAll m cs).updates.length = m.updates.length) ∧
    (∀ i (h : i < m.updates.length) (h' : i < (raiseAll m cs).updates.length),
      SemVer.le (m.updates.get ⟨i, h⟩).max_version
        ((raiseAll m cs).updates.get ⟨i, h'⟩).max_version = true) ∧
    (∀ v af vf, ∀ u' ∈ (m.update_max_version v af vf).updates,
      ∃ u ∈ m.updates, u'.version = u.version ∧
        (filterMatch u af vf = true → u'.max_version = vmax u.max_version v) ∧
        (filterMatch u af vf = false → u' = u)) ∧
    (∀ v af vf, (∀ u ∈ m.updates, filterMatch u af vf = true →
        SemVer.le v u.max_version = true) → m.update_max_version v af vf = m) ∧
    ((match c2Chain with
      | .ok mf => mf.updates.all (fun u => u.max_version == v124)
      | .error _ => false) = true) := by
  refine ⟨raiseAll_length m cs, raiseAll_mono m cs, ?_, update_max_version_no_effect m, by decide⟩
  intro v af vf u' hu'
  simp only [Manifest.update_max_version] at hu'
  rcases List.mem_map.mp hu' with ⟨u, hu, rfl⟩
  refine ⟨u, hu, ?_, ?_, ?_⟩
  · by_cases hf : filterMatch u af vf = true
    · simp [hf]
    · simp [hf]
  · intro hf
    simp [hf]
  · intro hf
    simp [hf]

/-- Witness for C2 at a concrete input: one raise to 1.2.4 on the sample
manifest does not decrease the single update's ceiling. -/
theorem update_max_version_monotone_witness :
    SemVer.le (mSync.updates.get ⟨0, by decide⟩).max_version
      ((raiseAll mSync [(v124, none, none)]).updates.get ⟨0, by decide⟩).max_version = true :=
  (update_max_version_monotone mSync [(v124, none, none)]).2.1 0 (by decide) (by decide)

/-! ### Catalog ordering lemmas -/

theorem catalogSorted_update_max_version {m : Manifest} {v : SemVer}
    {af vf : Option String} (hs : catalogSorted m.updates) :
    catalogSorted (m.update_max_version v af vf).updates := by
  unfold Manifest.update_max_version catalogSorted at *
  refine List.Pairwise.map _ ?_ hs
  intro a b hab
  have hva : (if filterMatch a af vf then
      { a with max_version := vmax a.max_version v } else a).version = a.version := by
    split <;> rfl
  have hvb : (if filterMatch b af vf then
      { b with max_version := vmax b.max_version v } else b).version = b.version := by
    split <;> rfl
  unfold descR at hab ⊢
  rw [hva, hvb]
  exact hab

theorem mem_version_update_max_version {m : Manifest} {v : SemVer}
    {af vf : Option String} {w : SemVer} :
    (∃ u' ∈ (m.update_max_version v af vf).updates, u'.version = w) ↔
      ∃ u ∈ m.updates, u.version = w := by
  unfold Manifest.update_max_version
  simp only [List.mem_map]
  constructor
  · rintro ⟨u', ⟨u, hu, rfl⟩, hv⟩
    refine ⟨u, hu, ?_⟩
    revert hv
    split <;> exact id
  · rintro ⟨u, hu, rfl⟩
    refine ⟨_, ⟨u, hu, rfl⟩, ?_⟩
    split <;> rfl

theorem mem_version_insertDesc {l : List Update} {nu : Update} {w : SemVer} :
    (∃ u ∈ insertDesc nu l, u.version = w) ↔
      (nu.version = w ∨ ∃ u ∈ l, u.version = w) := by
  unfold insertDesc
  constructor
  · rintro ⟨u, hu, rfl⟩
    rcases (List.mem_orderedInsert ..).mp hu with rfl | h
    · exact Or.inl rfl
    · exact Or.inr ⟨u, h, rfl⟩
  · rintro (h | ⟨u, hu, rfl⟩)
    · exact ⟨nu, (List.mem_orderedInsert ..).mpr (Or.inl rfl), h⟩
    · exact ⟨u, (List.mem_orderedInsert ..).mpr (Or.inr hu), rfl⟩

theorem add_update_ok_sorted {m m' : Manifest} {iv : SemVer} {mv : Option SemVer}
    {dsv : DataVersion} {ar vr : String} {im : Images}
    (h : m.add_update iv mv dsv ar vr im = .ok m')
    (hs : catalogSorted m.updates) : catalogSorted m'.updates := by
  unfold Manifest.add_update at h
  split at h
  · cases h
  · dsimp only at h
    cases mv with
    | some v =>
      cases h
      exact catalogSorted_update_max_version (List.Sorted.orderedInsert _ _ hs)
    | none =>
      cases h
      exact List.Sorted.orderedInsert _ _ hs

theorem add_update_ok_version_iff {m m' : Manifest} {iv : SemVer}
    {mv : Option SemVer} {dsv : DataVersion} {ar vr : String} {im : Images}
    (h : m.add_update iv mv dsv ar vr im = .ok m') (w : SemVer) :
    (∃ u' ∈ m'.updates, u'.version = w) ↔
      (iv = w ∨ ∃ u ∈ m.updates, u.version = w) := by
  unfold Manifest.add_update at h
  split at h
  · cases h
  · dsimp only at h
    cases mv with
    | some v =>
      cases h
      exact Iff.trans mem_version_update_max_version mem_version_insertDesc
    | none =>
      cases h
      exact mem_version_insertDesc

theorem applyAdds_ok_props {rs : List AddUpdateArgs} {m mf : Manifest}
    (h : applyAdds m rs = .ok mf) (hs : catalogSorted m.updates) :
    catalogSorted mf.updates ∧
    (∀ w, (∃ u ∈ mf.updates, u.version = w) ↔
      ((∃ u ∈ m.updates, u.version = w) ∨ ∃ r ∈ rs, r.image_version = w)) := by
  induction rs generalizing m with
  | nil =>
    simp only [applyAdds] at h
    cases h
    exact ⟨hs, fun w => by simp⟩
  | cons r rs ih =>
    simp only [applyAdds] at h
    cases hadd : m.add_update r.image_version r.max_version r.datastore_version
        r.arch r.variant ⟨r.root, r.boot, r.hash⟩ with
    | error e => rw [hadd] at h; cases h
    | ok m1 =>
      rw [hadd] at h
      have hs1 := add_update_ok_sorted hadd hs
      rcases ih h hs1 with ⟨hsf, hifff⟩
      refine ⟨hsf, fun w => ?_⟩
      rw [hifff w, add_update_ok_version_iff hadd w]
      have hcons : (∃ x ∈ r :: rs, x.image_version = w) ↔
          (r.image_version = w ∨ ∃ x ∈ rs, x.image_version = w) := by
        simp
      rw [hcons]
      exact or_assoc.trans or_left_comm

theorem sorted_head_max {l : List Update} {u₀ : Update} (hs : catalogSorted l)
    (hh : l.head? = some u₀) :
    ∀ u ∈ l, SemVer.le u.version u₀.version = true := by
  cases l with
  | nil => cases hh
  | cons a t =>
    cases hh
    intro u hu
    rcases List.mem_cons.mp hu with rfl | hu'
    · exact SemVer.le_refl _
    · exact List.rel_of_sorted_cons hs u hu'

/-- C3: after any sequence of successful add_update calls starting from
the empty manifest, the head of the catalog carries the maximum version
among all inserted records (and is itself one of them); and after a
subsequent remove_update, the reported version is the head's, which is
again the maximum among the remaining records. -/
theorem catalog_head_max (rs : List AddUpdateArgs) (m : Manifest)
    (h : applyAdds Manifest.default rs = .ok m) :
    (∀ u₀, m.updates.head? = some u₀ →
      (∀ u ∈ m.updates, SemVer.le u.version u₀.version = true) ∧
      (∀ r ∈ rs, SemVer.le r.image_version u₀.version = true) ∧
      (∃ r ∈ rs, r.image_version = u₀.version)) ∧
    (∀ a m' rep, RemoveUpdateArgs.run a (.ok m) = .ok (m', rep) →
      ∀ u₀', m'.updates.head? = some u₀' →
        rep = some u₀'.version ∧
        ∀ u ∈ m'.updates, SemVer.le u.version u₀'.version = true) := by
  have hdef : catalogSorted (Manifest.default).updates := List.sorted_nil
  rcases applyAdds_ok_props h hdef with ⟨hsf, hiff⟩
  constructor
  · intro u₀ hh
    have hmax := sorted_head_max hsf hh
    refine ⟨hmax, ?_, ?_⟩
    · intro r hr
      have hex : ∃ u ∈ m.updates, u.version = r.image_version :=
        (hiff r.image_version).mpr (Or.inr ⟨r, hr, rfl⟩)
      rcases hex with ⟨u, hu, hv⟩
      rw [← hv]
      exact hmax u hu
    · have hu₀ : u₀ ∈ m.updates := by
        cases hl : m.updates with
        | nil => rw [hl] at hh; cases hh
        | cons a t =>
          rw [hl] at hh
          cases hh
          exact List.mem_cons_self ..
      rcases (hiff u₀.version).mp ⟨u₀, hu₀, rfl⟩ with hold | hnew
      · rcases hold with ⟨u, hu, _⟩
        exact absurd hu (List.not_mem_nil u)
      · exact hnew
  · intro a m' rep hok u₀' hh'
    simp only [RemoveUpdateArgs.run] at hok
    cases hok
    constructor
    · rw [hh']
      rfl
    · refine sorted_head_max ?_ hh'
      have hfil : List.Sublist (List.filter (fun u =>
          u.arch != a.arch || u.variant != a.variant ||
            u.version != a.image_version) m.updates) m.updates :=
        List.filter_sublist _
      split
      · split
        · exact List.Pairwise.sublist hfil hsf
        · exact List.Pairwise.sublist hfil hsf
      · exact List.Pairwise.sublist hfil hsf

/-- Witness for C3 at a concrete input: after the rs3 sequence the head
is version 1.2.5 and dominates the inserted version 1.2.3. -/
theorem catalog_head_max_witness : SemVer.le v123 v125 = true :=
  ((catalog_head_max rs3 mC3 rfl).1 u125f rfl).1 u123f (by decide)

end Updata
